import Mathlib

/-!
Verification of the Hickory NLP assignment repository
(`app.py` text-classification demo and `scraper.py` dataset builder).

Python strings are embedded as `List Char`.  The Python operations used by
the sources (`str.lower`, `str.strip`, `re.sub`, whitespace splitting,
`' '.join`, the `in` operator, `sorted`, `max`) are given explicit
faithful definitions below.  The Python `lower`/`strip`/`\s` semantics are
Unicode-aware; the embedding covers the ASCII range, which all noise
patterns and every concrete input considered here stay inside (a non-ASCII
letter is neither kept by `[^a-z\s]` nor lowered into the kept range, so
the pipeline results agree on all inputs whose characters the embedding
classifies as Python does).
-/

/-- The characters matched by Python's `\s` and trimmed by `str.strip()`
(ASCII range): space, tab, newline, carriage return, vertical tab, form feed. -/
def isPySpace (c : Char) : Bool :=
  c = ' ' || c = '\t' || c = '\n' || c = '\r' || c = '\x0b' || c = '\x0c'

/-- Membership of a character in the regex class `[a-z]`. -/
def isLowerAZ (c : Char) : Bool := 'a' ≤ c && c ≤ 'z'

/-- Python `str.lower` on one character (ASCII range). -/
def pyLowerChar (c : Char) : Char :=
  if 'A' ≤ c && c ≤ 'Z' then Char.ofNat (c.toNat + 32) else c

/-- Python `str.lower`. -/
def pyLower (l : List Char) : List Char := l.map pyLowerChar

/-- Python `str.strip()`: drop leading and trailing whitespace. -/
def pyStrip (l : List Char) : List Char :=
  ((l.dropWhile isPySpace).reverse.dropWhile isPySpace).reverse

/-- Python `re.sub(r'\s+', ' ', text)`: replace every maximal run of
whitespace by a single space. -/
def collapseWs : List Char → List Char
  | [] => []
  | c :: cs =>
    if isPySpace c then ' ' :: collapseWs (cs.dropWhile isPySpace)
    else c :: collapseWs cs
termination_by l => l.length
decreasing_by
  · exact Nat.lt_succ_of_le (List.dropWhile_sublist _).length_le
  · exact Nat.lt_succ_self _

/-- Splitting on whitespace runs, dropping empty fields (Python
`str.split()` with no argument; also NLTK `word_tokenize` on text whose
punctuation was already stripped, see `specTokenize`). -/
def pySplitWs : List Char → List (List Char)
  | [] => []
  | c :: cs =>
    if isPySpace c then pySplitWs cs
    else (c :: cs.takeWhile (fun d => !isPySpace d)) ::
      pySplitWs (cs.dropWhile (fun d => !isPySpace d))
termination_by l => l.length
decreasing_by
  · exact Nat.lt_succ_self _
  · exact Nat.lt_succ_of_le (List.dropWhile_sublist _).length_le

/-- Python `' '.join(tokens)`. -/
def joinSpace : List (List Char) → List Char
  | [] => []
  | [t] => t
  | t :: ts => t ++ ' ' :: joinSpace ts

/-- `app.py` `preprocess`: lowercase, `re.sub(r'[^a-z\s]', ' ', ·)`,
`re.sub(r'\s+', ' ', ·).strip()`, `word_tokenize`, drop stopwords and
tokens of length ≤ 2, lemmatize every token as a verb, then lemmatize
every token as a noun, and rejoin with spaces.  The NLTK stopword set and
the two WordNet lemmatizer passes are external artifacts and enter as
parameters `stop`, `lemV`, `lemN`. -/
def preprocess (stop : List (List Char)) (lemV lemN : List Char → List Char)
    (text : List Char) : List Char :=
  let t1 := pyLower text
  let t2 := t1.map (fun c => if isLowerAZ c || isPySpace c then c else ' ')
  let t3 := pyStrip (collapseWs t2)
  let tokens0 := pySplitWs t3
  let tokens1 := tokens0.filter (fun t => decide (t ∉ stop ∧ 2 < t.length))
  let tokens2 := tokens1.map lemV
  let tokens3 := tokens2.map lemN
  joinSpace tokens3

/-- Spec §4.1 step 1: lowercase the entire string. -/
def specLowercase (s : List Char) : List Char := pyLower s

/-- Spec §4.1 step 2: replace every character that is not a lowercase
letter or whitespace with a single space. -/
def specStripNonLetters (s : List Char) : List Char :=
  s.map (fun c => if isLowerAZ c || isPySpace c then c else ' ')

/-- Spec §4.1 step 3: collapse consecutive whitespace to one space and
trim leading/trailing whitespace. -/
def specCollapseTrim (s : List Char) : List Char := pyStrip (collapseWs s)

/-- Spec §4.1 step 4: split into word tokens.  Modelled from the spec:
NLTK `word_tokenize` is an external artifact not in the sources; per the
spec, on text whose punctuation step 2 already removed, tokenization
reduces to whitespace splitting. -/
def specTokenize (s : List Char) : List (List Char) := pySplitWs s

/-- Spec §4.1 step 5: remove tokens in the stopword set or of length ≤ 2. -/
def specFilterTokens (stop : List (List Char)) (ts : List (List Char)) :
    List (List Char) :=
  ts.filter (fun t => decide (t ∉ stop ∧ 2 < t.length))

/-- Spec §4.1 step 6: lemmatize each token as a verb, then lemmatize that
result as a noun (the second pass operates on the output of the first). -/
def specLemmatize (lemV lemN : List Char → List Char)
    (ts : List (List Char)) : List (List Char) :=
  ts.map (fun t => lemN (lemV t))

/-- Spec §4.1 step 7: re-join surviving tokens with single spaces. -/
def specRejoin (ts : List (List Char)) : List Char := joinSpace ts

/-- The spec §4.1 reference normalizer: the seven steps composed in order. -/
def normalizeSpec (stop : List (List Char)) (lemV lemN : List Char → List Char)
    (raw : List Char) : List Char :=
  specRejoin (specLemmatize lemV lemN (specFilterTokens stop
    (specTokenize (specCollapseTrim (specStripNonLetters (specLowercase raw))))))

/-- Claim C1: for every stopword set, lemmatizer pair and input string,
`preprocess` equals the spec's reference composition of the seven
normalization steps in order; being a Lean function of its inputs it is
pure and total. -/
theorem preprocess_eq_normalizeSpec (stop : List (List Char))
    (lemV lemN : List Char → List Char) (raw : List Char) :
    preprocess stop lemV lemN raw = normalizeSpec stop lemV lemN raw := by
  simp [preprocess, normalizeSpec, specRejoin, specLemmatize, specFilterTokens,
    specTokenize, specCollapseTrim, specStripNonLetters, specLowercase,
    List.map_map]
  rfl

/-- Prefix test on character lists (`lMatch p l` iff `p` is a prefix of `l`). -/
def lMatch : List Char → List Char → Bool
  | [], _ => true
  | _ :: _, [] => false
  | a :: as, b :: bs => a = b && lMatch as bs

/-- Python's `in` operator on strings: `containsSub p l` iff the literal
`p` occurs contiguously somewhere in `l`. -/
def containsSub (pat : List Char) : List Char → Bool
  | [] => lMatch pat []
  | c :: cs => lMatch pat (c :: cs) || containsSub pat cs

/-- The shapes of regular expression that occur in `scraper.py`'s
`NOISE_PATTERNS` list, interpreted under `re.search` without `MULTILINE`
(so `^` anchors at the start of the string only, and `$` matches at the
end of the string or just before a trailing newline). -/
inductive PatShape where
  | startsLit (lit : List Char)
  | fullLit (lit : List Char)
  | containsLit (lit : List Char)
  | startsAlt (pre : List Char) (alts : List (List Char))
  | fullDigits
deriving DecidableEq

/-- `re.search` of one `NOISE_PATTERNS` entry.  All pattern literals are
lowercase, so `re.IGNORECASE` matching against `t` is matching the plain
literal against `pyLower t`; the caller passes the lowered text. -/
def matchPat (l : List Char) : PatShape → Bool
  | .startsLit lit => lMatch lit l
  | .fullLit lit => decide (l = lit) || decide (l = lit ++ ['\n'])
  | .containsLit lit => containsSub lit l
  | .startsAlt pre alts => alts.any (fun a => lMatch (pre ++ a) l)
  | .fullDigits =>
    (!l.isEmpty && l.all (fun c => c.isDigit)) ||
    (decide (l.getLast? = some '\n') && !l.dropLast.isEmpty &&
      l.dropLast.all (fun c => c.isDigit))

/-- `scraper.py` `NOISE_PATTERNS`, in source order (`\d` is modelled over
ASCII digits; the apostrophe of the `o'clock` pattern is `Char.ofNat 39`). -/
def NOISE_PATTERNS : List PatShape :=
  [ .startsLit "lorem ipsum".data
  , .startsLit "food drinks wines".data
  , .startsLit "drinks wines".data
  , .startsLit "wines all drinks".data
  , .startsLit "cake events".data
  , .startsLit "food / food".data
  , .startsLit "drinks / drinks".data
  , .startsLit "wines / wines".data
  , .startsLit "cake / cake".data
  , .startsLit "contact us sed".data
  , .startsAlt "/ ".data ["food".data, "drinks".data, "wines".data, "cake".data, "events".data]
  , .fullLit "follow us".data
  , .fullLit "view menu".data
  , .fullLit "see more".data
  , .fullLit "all drinks".data
  , .fullLit "events".data
  , .fullLit "gallery".data
  , .fullLit "contact us".data
  , .fullLit "food menu".data
  , .fullLit "drinks menu".data
  , .fullLit "cake menu".data
  , .fullLit "exquisite recipes".data
  , .fullLit "specials".data
  , .fullLit "cocktail".data
  , .fullLit ("o".data ++ [Char.ofNat 39] ++ "clock".data)
  , .fullLit "search".data
  , .fullLit "menu".data
  , .fullLit "home".data
  , .fullLit "food".data
  , .fullLit "drinks".data
  , .fullLit "wines".data
  , .fullLit "cake".data
  , .startsLit "designed by".data
  , .startsLit "copyright".data
  , .containsLit "©".data
  , .containsLit "designed by fortitude".data
  , .startsLit "sed tincidunt".data
  , .startsLit "get in touch".data
  , .startsLit "opening hours".data
  , .fullLit "reservation".data
  , .startsLit "book a table".data
  , .startsLit "make a reservation".data
  , .fullDigits
  ]

/-- The repeated navigation-bar content rejected case-sensitively by
`is_noise`'s final check. -/
def navBarText : List Char := "Food Drinks Wines All Drinks Cake Events".data

/-- `scraper.py` `is_noise`: strip the text; very short strings are noise;
then the `NOISE_PATTERNS` regexes (case-insensitive, hence run on the
lowered text) and the case-sensitive navigation-bar substring check. -/
def is_noise (text : List Char) : Bool :=
  let t := pyStrip text
  if t.length < 15 then true
  else if NOISE_PATTERNS.any (fun p => matchPat (pyLower t) p) then true
  else if containsSub navBarText t then true
  else false

theorem pyStrip_length_le (l : List Char) : (pyStrip l).length ≤ l.length := by
  simp only [pyStrip, List.length_reverse]
  exact le_trans (List.dropWhile_sublist _).length_le
    (by simpa using (List.dropWhile_sublist (l := l) isPySpace).length_le)

/-- Claim C8: every string of length less than 15 characters is classified
as noise by `is_noise`, whatever its content. -/
theorem is_noise_of_short (s : List Char) (h : s.length < 15) :
    is_noise s = true := by
  have ht : (pyStrip s).length < 15 := lt_of_le_of_lt (pyStrip_length_le s) h
  simp [is_noise, ht]

/-- Witness for C8 at the concrete input `"hi"`. -/
theorem is_noise_of_short_witness :
    "hi".data.length < 15 ∧ is_noise "hi".data = true :=
  ⟨by decide, is_noise_of_short "hi".data (by decide)⟩

theorem lMatch_iff (p l : List Char) : lMatch p l = true ↔ p <+: l := by
  induction p generalizing l with
  | nil => simp [lMatch]
  | cons a as ih =>
    cases l with
    | nil => simp [lMatch]
    | cons b bs =>
      simp only [lMatch, Bool.and_eq_true, decide_eq_true_eq, ih,
        List.cons_prefix_cons]

theorem containsSub_iff (p l : List Char) :
    containsSub p l = true ↔ p <:+: l := by
  induction l with
  | nil => simp [containsSub, lMatch_iff]
  | cons c cs ih =>
    simp [containsSub, lMatch_iff, ih, List.infix_cons_iff]

theorem infix_dropWhile_of_head (q : Char → Bool) (a : Char)
    (rest l : List Char) (ha : q a = false) (h : (a :: rest) <:+: l) :
    (a :: rest) <:+: l.dropWhile q := by
  obtain ⟨s, t, rfl⟩ := h
  induction s with
  | nil => exact ⟨[], t, by simp [List.dropWhile_cons, ha]⟩
  | cons x s' ih =>
    by_cases hx : q x = true
    · simpa [List.dropWhile_cons, hx] using ih
    · exact ⟨x :: s', t, by simp [List.dropWhile_cons, hx]⟩

theorem infix_pyStrip {pat l : List Char} (h : pat <:+: l)
    (hh : ∃ a t, pat = a :: t ∧ isPySpace a = false)
    (hl : ∃ a t, pat.reverse = a :: t ∧ isPySpace a = false) :
    pat <:+: pyStrip l := by
  obtain ⟨a, t, hp, ha⟩ := hh
  obtain ⟨b, u, hq, hb⟩ := hl
  have h1 : pat <:+: l.dropWhile isPySpace := by
    rw [hp] at h ⊢
    exact infix_dropWhile_of_head _ _ _ _ ha h
  have h2 : pat.reverse <:+: (l.dropWhile isPySpace).reverse :=
    List.reverse_infix.mpr h1
  have h3 : pat.reverse <:+: (l.dropWhile isPySpace).reverse.dropWhile isPySpace := by
    rw [hq] at h2 ⊢
    exact infix_dropWhile_of_head _ _ _ _ hb h2
  have h4 := List.reverse_infix.mpr h3
  simpa [pyStrip] using h4

/-- Claim C10: every string that contains the literal navigation-bar
substring is classified as noise by `is_noise`, whatever its length and
whether or not any noise regex matches it. -/
theorem is_noise_of_navBar (s : List Char)
    (h : containsSub navBarText s = true) : is_noise s = true := by
  have hinf : navBarText <:+: s := (containsSub_iff _ _).mp h
  have h2 : navBarText <:+: pyStrip s := by
    refine infix_pyStrip hinf ?_ ?_
    · exact ⟨'F', navBarText.tail, by decide, by decide⟩
    · exact ⟨'s', navBarText.reverse.tail, by decide, by decide⟩
  have h3 : containsSub navBarText (pyStrip s) = true :=
    (containsSub_iff _ _).mpr h2
  simp [is_noise, h3]

/-- Witness for C10: a long string containing the navigation-bar content
is noise. -/
theorem is_noise_of_navBar_witness :
    containsSub navBarText
        ("some prefix ".data ++ navBarText ++ " some suffix".data) = true ∧
      is_noise ("some prefix ".data ++ navBarText ++ " some suffix".data) = true :=
  ⟨by decide, is_noise_of_navBar _ (by decide)⟩

/-- A row of the dataset builder's output
(`scraper.py` field names `source_page, category, item_name, description, price`). -/
structure ScrapedRow where
  source_page : List Char
  category : List Char
  item_name : List Char
  description : List Char
  price : List Char
deriving DecidableEq

/-- The dedup key of `scraper.py`'s `__main__` loop:
`row["description"].strip().lower()`. -/
def descKey (r : ScrapedRow) : List Char := pyLower (pyStrip r.description)

/-- The `__main__` dedup loop of `scraper.py`, with the mutable `seen` set
made explicit: keep a row iff its key is unseen and longer than 5
characters (`if desc not in seen and len(desc) > 5`). -/
def dedup_rows_aux : List (List Char) → List ScrapedRow → List ScrapedRow
  | _, [] => []
  | seen, r :: rs =>
    if descKey r ∉ seen ∧ 5 < (descKey r).length
    then r :: dedup_rows_aux (descKey r :: seen) rs
    else dedup_rows_aux seen rs

/-- The deduplicated dataset (`unique_data` in `scraper.py`'s `__main__`). -/
def dedup_rows (rows : List ScrapedRow) : List ScrapedRow :=
  dedup_rows_aux [] rows

theorem dedup_rows_aux_sublist (seen : List (List Char))
    (rows : List ScrapedRow) : (dedup_rows_aux seen rows).Sublist rows := by
  induction rows generalizing seen with
  | nil => simp [dedup_rows_aux]
  | cons r rs ih =>
    by_cases hc : descKey r ∉ seen ∧ 5 < (descKey r).length
    · simpa [dedup_rows_aux, hc] using (ih (descKey r :: seen)).cons₂ r
    · simpa [dedup_rows_aux, hc] using (ih seen).cons r

theorem dedup_rows_aux_mem (seen : List (List Char)) (rows : List ScrapedRow)
    (r : ScrapedRow) (hr : r ∈ dedup_rows_aux seen rows) :
    descKey r ∉ seen ∧ 5 < (descKey r).length := by
  induction rows generalizing seen with
  | nil => simp [dedup_rows_aux] at hr
  | cons x xs ih =>
    by_cases hc : descKey x ∉ seen ∧ 5 < (descKey x).length
    · rw [dedup_rows_aux, if_pos hc] at hr
      rcases List.mem_cons.mp hr with rfl | hr
      · exact hc
      · have := ih _ hr
        exact ⟨fun hmem => this.1 (List.mem_cons_of_mem _ hmem), this.2⟩
    · rw [dedup_rows_aux, if_neg hc] at hr
      exact ih _ hr

theorem dedup_rows_aux_pairwise (seen : List (List Char))
    (rows : List ScrapedRow) :
    (dedup_rows_aux seen rows).Pairwise (fun a b => descKey a ≠ descKey b) := by
  induction rows generalizing seen with
  | nil => simp [dedup_rows_aux]
  | cons r rs ih =>
    by_cases hc : descKey r ∉ seen ∧ 5 < (descKey r).length
    · rw [dedup_rows_aux, if_pos hc]
      refine List.Pairwise.cons (fun b hb => ?_) (ih _)
      have := (dedup_rows_aux_mem _ _ _ hb).1
      intro hEq
      exact this (by simp [← hEq])
    · rw [dedup_rows_aux, if_neg hc]
      exact ih _

theorem dedup_rows_aux_filter (seen : List (List Char))
    (rows : List ScrapedRow) (k : List Char) :
    (dedup_rows_aux seen rows).filter (fun r => decide (descKey r = k)) =
      if k ∉ seen ∧ 5 < k.length
      then (rows.filter (fun r => decide (descKey r = k))).take 1
      else [] := by
  induction rows generalizing seen with
  | nil => simp [dedup_rows_aux]
  | cons r rs ih =>
    by_cases hc : descKey r ∉ seen ∧ 5 < (descKey r).length
    · rw [dedup_rows_aux, if_pos hc]
      by_cases hk : descKey r = k
      · subst hk
        rw [List.filter_cons_of_pos (by simp), List.filter_cons_of_pos (by simp)]
        rw [ih (descKey r :: seen)]
        rw [if_neg (by simp), if_pos hc]
        simp
      · rw [List.filter_cons_of_neg (by simp [hk]),
          List.filter_cons_of_neg (by simp [hk])]
        rw [ih (descKey r :: seen)]
        by_cases hks : k ∉ seen ∧ 5 < k.length
        · rw [if_pos ⟨by simp [hks.1, Ne.symm hk], hks.2⟩, if_pos hks]
        · rw [if_neg (by simpa [Ne.symm hk] using hks), if_neg hks]
    · rw [dedup_rows_aux, if_neg hc]
      by_cases hk : descKey r = k
      · subst hk
        rw [ih seen, List.filter_cons_of_pos (by simp)]
        rw [if_neg hc, if_neg hc]
      · rw [ih seen, List.filter_cons_of_neg (by simp [hk])]

/-- Claim C7: in the dataset builder's final output no two rows share a
normalized description, every row whose normalized description has length
≤ 5 is discarded, the row kept for each key is the first in input order,
and the surviving rows keep their original relative order. -/
theorem dedup_rows_invariants (rows : List ScrapedRow) (k : List Char) :
    (dedup_rows rows).Sublist rows ∧
    (dedup_rows rows).Pairwise (fun a b => descKey a ≠ descKey b) ∧
    (∀ r ∈ dedup_rows rows, 5 < (descKey r).length) ∧
    ((dedup_rows rows).filter (fun r => decide (descKey r = k)) =
      if 5 < k.length
      then (rows.filter (fun r => decide (descKey r = k))).take 1
      else []) := by
  refine ⟨dedup_rows_aux_sublist [] rows, dedup_rows_aux_pairwise [] rows,
    fun r hr => (dedup_rows_aux_mem [] rows r hr).2, ?_⟩
  rw [dedup_rows, dedup_rows_aux_filter [] rows k]
  simp

/-- Witness for C7 at a concrete three-row dataset: the rows with
descriptions `"Fresh bread"` and `"fresh bread "` collapse to the first
one, and the short-description row `"cake"` is dropped. -/
theorem dedup_rows_invariants_witness :
    (dedup_rows
        [⟨"home".data, "description".data, [], "Fresh bread".data, []⟩,
         ⟨"cake".data, "Cake".data, [], "cake".data, []⟩,
         ⟨"food".data, "Food".data, [], "fresh bread ".data, []⟩]).Sublist
      [⟨"home".data, "description".data, [], "Fresh bread".data, []⟩,
       ⟨"cake".data, "Cake".data, [], "cake".data, []⟩,
       ⟨"food".data, "Food".data, [], "fresh bread ".data, []⟩] ∧
    (dedup_rows
        [⟨"home".data, "description".data, [], "Fresh bread".data, []⟩,
         ⟨"cake".data, "Cake".data, [], "cake".data, []⟩,
         ⟨"food".data, "Food".data, [], "fresh bread ".data, []⟩]).Pairwise
      (fun a b => descKey a ≠ descKey b) ∧
    (∀ r ∈ dedup_rows
        [⟨"home".data, "description".data, [], "Fresh bread".data, []⟩,
         ⟨"cake".data, "Cake".data, [], "cake".data, []⟩,
         ⟨"food".data, "Food".data, [], "fresh bread ".data, []⟩],
      5 < (descKey r).length) ∧
    ((dedup_rows
        [⟨"home".data, "description".data, [], "Fresh bread".data, []⟩,
         ⟨"cake".data, "Cake".data, [], "cake".data, []⟩,
         ⟨"food".data, "Food".data, [], "fresh bread ".data, []⟩]).filter
        (fun r => decide (descKey r = "fresh bread".data)) =
      if 5 < "fresh bread".data.length
      then (([⟨"home".data, "description".data, [], "Fresh bread".data, []⟩,
         ⟨"cake".data, "Cake".data, [], "cake".data, []⟩,
         ⟨"food".data, "Food".data, [], "fresh bread ".data, []⟩] :
           List ScrapedRow).filter
          (fun r => decide (descKey r = "fresh bread".data))).take 1
      else []) :=
  dedup_rows_invariants _ "fresh bread".data

/-- Two strings that differ only by letter case and/or whitespace: after
lowercasing and deleting every whitespace character they coincide. -/
def caseWsEq (d1 d2 : List Char) : Prop :=
  pyLower (d1.filter (fun c => !isPySpace c)) =
    pyLower (d2.filter (fun c => !isPySpace c))

/-- Counterexample to C6 as stated: the two rows below have descriptions
`"Cake "` and `"cake"`, which differ only by case and whitespace, yet
neither row survives deduplication (the shared normalized key `"cake"`
has length 4 ≤ 5, so the builder drops both), not exactly one. -/
theorem dedup_pair_counterexample :
    caseWsEq "Cake ".data "cake".data ∧
    ¬ ((dedup_rows
          [⟨"cake".data, "Cake".data, [], "Cake ".data, []⟩,
           ⟨"cake".data, "Cake".data, [], "cake".data, []⟩]).count
          ⟨"cake".data, "Cake".data, [], "Cake ".data, []⟩ +
        (dedup_rows
          [⟨"cake".data, "Cake".data, [], "Cake ".data, []⟩,
           ⟨"cake".data, "Cake".data, [], "cake".data, []⟩]).count
          ⟨"cake".data, "Cake".data, [], "cake".data, []⟩ = 1) := by
  exact ⟨by unfold caseWsEq; decide, by decide⟩

/-- Claim C6 (amended): for every pair of rows whose descriptions have the
same normalized (trimmed, lowercased) key — in particular, rows differing
only by letter case and/or leading/trailing whitespace — with that key
longer than 5 characters, exactly the first of the two survives
deduplication. -/
theorem dedup_pair_same_key (r1 r2 : ScrapedRow)
    (hk : descKey r1 = descKey r2) (hlen : 5 < (descKey r1).length) :
    dedup_rows [r1, r2] = [r1] := by
  rw [dedup_rows, dedup_rows_aux, if_pos ⟨by simp, hlen⟩, dedup_rows_aux,
    if_neg (by simp [← hk]), dedup_rows_aux]

/-- Witness for the amended C6 at a concrete pair of rows with
descriptions `"Fresh Bread "` and `"fresh bread"`. -/
theorem dedup_pair_same_key_witness :
    dedup_rows
        [⟨"home".data, "description".data, [], "Fresh Bread ".data, []⟩,
         ⟨"food".data, "Food".data, [], "fresh bread".data, []⟩] =
      [⟨"home".data, "description".data, [], "Fresh Bread ".data, []⟩] :=
  dedup_pair_same_key _ _ (by decide) (by decide)

/-- The classification result assembled and displayed by `app.py`
`classify_text`: predicted label, and, when the model exposes
`predict_proba`, the confidence and the displayed distribution. -/
structure ClassificationResult where
  prediction : List Char
  confidence : Option ℚ
  distribution : Option (List (List Char × ℚ))
deriving DecidableEq

/-- The opaque pre-trained classifier artifact of `app.py`: its label set
`classes_`, its `predict` on one feature vector, and, when the object has
the attribute, `predict_proba` on one feature vector (the first — only —
row of the returned matrix).  Probabilities are embedded as rationals. -/
structure NLPModel where
  classes : List (List Char)
  predict : List ℚ → List (List Char)
  predictProba : Option (List ℚ → List ℚ)

/-- Python's builtin `max` on a list; `none` models the `ValueError`
raised on an empty sequence. -/
def pyMax : List ℚ → Option ℚ
  | [] => none
  | x :: xs => some (xs.foldl max x)

/-- `app.py` `classify_text`: preprocess, vectorize the single-item batch,
take `predict(vec)[0]`, and if the model has `predict_proba` compute
`confidence = max(proba)` and display
`sorted(zip(classes, proba), key=lambda x: x[1], reverse=True)` (a stable
descending sort by probability).  `none` models a raised exception
(`[0]` on an empty prediction, `max` of an empty row). -/
def classify_text (m : NLPModel) (tfidf : List Char → List ℚ)
    (stop : List (List Char)) (lemV lemN : List Char → List Char)
    (text : List Char) : Option ClassificationResult :=
  let processed := preprocess stop lemV lemN text
  let vec := tfidf processed
  match (m.predict vec).head? with
  | none => none
  | some prediction =>
    match m.predictProba with
    | some f =>
      let proba := f vec
      match pyMax proba with
      | none => none
      | some confidence =>
        some { prediction := prediction, confidence := some confidence,
               distribution :=
                 some ((m.classes.zip proba).mergeSort (fun a b => b.2 ≤ a.2)) }
    | none =>
      some { prediction := prediction, confidence := none,
             distribution := none }

/-- Outcome of pressing the Classify button in the Streamlit shell. -/
inductive UIOutcome where
  | warned
  | classified (r : Option ClassificationResult)
deriving DecidableEq

/-- The Classify button handler of `app.py`:
`if user_input.strip(): classify_text(user_input) else: st.warning(...)`. -/
def classify_button (m : NLPModel) (tfidf : List Char → List ℚ)
    (stop : List (List Char)) (lemV lemN : List Char → List Char)
    (userInput : List Char) : UIOutcome :=
  if pyStrip userInput ≠ [] then
    .classified (classify_text m tfidf stop lemV lemN userInput)
  else .warned

/-- Claim C4: for every empty or whitespace-only input and every loaded
model and vectorizer, the Classify trigger produces only the warning
outcome — the classification path, and with it the vectorizer and
classifier, is never invoked. -/
theorem classify_button_blank (m : NLPModel) (tfidf : List Char → List ℚ)
    (stop : List (List Char)) (lemV lemN : List Char → List Char)
    (input : List Char) (h : ∀ c ∈ input, isPySpace c = true) :
    classify_button m tfidf stop lemV lemN input = .warned := by
  have hd : input.dropWhile isPySpace = [] := List.dropWhile_eq_nil_iff.mpr h
  have hs : pyStrip input = [] := by simp [pyStrip, hd]
  simp [classify_button, hs]

/-- Witness for C4 at the concrete blank inputs `""` and `"   "`. -/
theorem classify_button_blank_witness :
    classify_button ⟨[], fun _ => [], none⟩ (fun _ => []) [] id id "".data =
        .warned ∧
      classify_button ⟨[], fun _ => [], none⟩ (fun _ => []) [] id id
        "   ".data = .warned :=
  ⟨classify_button_blank _ _ _ _ _ _ (by decide),
   classify_button_blank _ _ _ _ _ _ (by decide)⟩

theorem foldl_max_spec (xs : List ℚ) (x : ℚ) :
    xs.foldl max x ∈ x :: xs ∧ x ≤ xs.foldl max x ∧
      ∀ p ∈ xs, p ≤ xs.foldl max x := by
  induction xs generalizing x with
  | nil => simp
  | cons y ys ih =>
    obtain ⟨hmem, hle, hall⟩ := ih (max x y)
    rw [List.foldl_cons]
    refine ⟨?_, le_trans (le_max_left x y) hle, ?_⟩
    · rcases List.mem_cons.mp hmem with hEq | hIn
      · rw [hEq]
        rcases max_choice x y with hc | hc <;> rw [hc]
        · exact List.mem_cons_self _ _
        · exact List.mem_cons_of_mem _ (List.mem_cons_self _ _)
      · exact List.mem_cons_of_mem _ (List.mem_cons_of_mem _ hIn)
    · intro p hp
      rcases List.mem_cons.mp hp with rfl | hIn
      · exact le_trans (le_max_right x p) hle
      · exact hall p hIn

theorem countP_eq_ite_of_nodup {α : Type} [DecidableEq α] (l : List α)
    (hl : l.Nodup) (a : α) :
    l.countP (fun c => decide (c = a)) = if a ∈ l then 1 else 0 := by
  induction l with
  | nil => simp
  | cons x xs ih =>
    rw [List.countP_cons]
    rcases List.nodup_cons.mp hl with ⟨hx, hxs⟩
    by_cases hax : x = a
    · subst hax
      rw [List.countP_eq_zero.mpr (fun c hc => by
        simp only [decide_eq_true_eq]
        exact fun hEq => hx (hEq ▸ hc))]
      simp
    · have h1 : (decide (x = a)) = false := by simp [hax]
      have h2 : (a ∈ x :: xs) ↔ a ∈ xs := by
        constructor
        · intro hmem
          rcases List.mem_cons.mp hmem with hEq | hmem
          · exact absurd hEq.symm hax
          · exact hmem
        · exact List.mem_cons_of_mem x
      rw [h1, ih hxs]
      simp [h2]

/-- Claim C5: whenever the model exposes `predict_proba` (and the external
artifact meets its contract: distinct classes, one probability column per
class, a nonempty prediction), the result carries a confidence equal to
the maximum of the per-class probabilities and a distribution with exactly
one entry per known label, sorted descending by probability; when the
model does not expose `predict_proba`, the result carries neither a
confidence nor a distribution. -/
theorem classify_text_distribution (m : NLPModel) (tfidf : List Char → List ℚ)
    (stop : List (List Char)) (lemV lemN : List Char → List Char)
    (text : List Char) (hnodup : m.classes.Nodup)
    (hpred : m.predict (tfidf (preprocess stop lemV lemN text)) ≠ []) :
    (∀ f, m.predictProba = some f →
      (f (tfidf (preprocess stop lemV lemN text))).length = m.classes.length →
      f (tfidf (preprocess stop lemV lemN text)) ≠ [] →
      ∃ r, classify_text m tfidf stop lemV lemN text = some r ∧
        (∃ c, r.confidence = some c ∧
          c ∈ f (tfidf (preprocess stop lemV lemN text)) ∧
          ∀ p ∈ f (tfidf (preprocess stop lemV lemN text)), p ≤ c) ∧
        ∃ d, r.distribution = some d ∧
          (d.map Prod.fst).Perm m.classes ∧
          (∀ lab, d.countP (fun e => decide (e.1 = lab)) =
            if lab ∈ m.classes then 1 else 0) ∧
          d.Pairwise (fun a b => b.2 ≤ a.2)) ∧
    (m.predictProba = none →
      ∃ r, classify_text m tfidf stop lemV lemN text = some r ∧
        r.confidence = none ∧ r.distribution = none) := by
  obtain ⟨p0, rest, h⟩ := List.exists_cons_of_ne_nil hpred
  constructor
  · intro f hf hlen hne
    obtain ⟨q, qs, hq⟩ := List.exists_cons_of_ne_nil hne
    refine ⟨{ prediction := p0, confidence := some (qs.foldl max q),
              distribution := some ((m.classes.zip
                (f (tfidf (preprocess stop lemV lemN text)))).mergeSort
                  (fun a b => b.2 ≤ a.2)) }, ?_, ?_, ?_⟩
    · simp only [classify_text, h, hf, List.head?_cons, hq, pyMax]
    · obtain ⟨hmem, hqle, hall⟩ := foldl_max_spec qs q
      refine ⟨qs.foldl max q, rfl, hq ▸ hmem, ?_⟩
      rw [hq]
      intro p hp
      rcases List.mem_cons.mp hp with rfl | hIn
      · exact hqle
      · exact hall p hIn
    · refine ⟨_, rfl, ?_, ?_, ?_⟩
      · have hperm := List.mergeSort_perm
          (m.classes.zip (f (tfidf (preprocess stop lemV lemN text))))
          (fun a b => b.2 ≤ a.2)
        have := hperm.map Prod.fst
        rwa [List.map_fst_zip _ _ (le_of_eq hlen.symm)] at this
      · intro lab
        have hperm := List.mergeSort_perm
          (m.classes.zip (f (tfidf (preprocess stop lemV lemN text))))
          (fun a b => b.2 ≤ a.2)
        rw [hperm.countP_eq]
        have hmap : (m.classes.zip
            (f (tfidf (preprocess stop lemV lemN text)))).countP
              (fun e => decide (e.1 = lab)) =
            ((m.classes.zip
              (f (tfidf (preprocess stop lemV lemN text)))).map
                Prod.fst).countP (fun c => decide (c = lab)) := by
          rw [List.countP_map]
          rfl
        rw [hmap, List.map_fst_zip _ _ (le_of_eq hlen.symm)]
        have := countP_eq_ite_of_nodup m.classes hnodup lab
        convert this using 2
      · have := @List.sorted_mergeSort (List Char × ℚ)
          (fun a b => decide (b.2 ≤ a.2))
          (fun a b c hab hbc => by
            simp only [decide_eq_true_eq] at hab hbc ⊢
            exact le_trans hbc hab)
          (fun a b => by
            simp only [Bool.or_eq_true, decide_eq_true_eq]
            exact le_total b.2 a.2)
          (m.classes.zip (f (tfidf (preprocess stop lemV lemN text))))
        exact this.imp (fun hab => by simpa using hab)
  · intro hnone
    exact ⟨{ prediction := p0, confidence := none, distribution := none },
      by simp only [classify_text, h, hnone, List.head?_cons], rfl, rfl⟩

/-- A concrete label set for exercising the classifier embedding. -/
def exClasses : List (List Char) := ["food".data, "drinks".data, "wines".data]

/-- A concrete probability row for exercising the classifier embedding. -/
def exProbs : List ℚ := [1/2, 1/3, 1/6]

/-- A concrete model exposing `predict_proba`. -/
def exModelP : NLPModel := ⟨exClasses, fun _ => ["food".data], some (fun _ => exProbs)⟩

/-- A concrete model without `predict_proba`. -/
def exModelNoP : NLPModel := ⟨exClasses, fun _ => ["food".data], none⟩

/-- A concrete stand-in vectorizer. -/
def exTfidf : List Char → List ℚ := fun _ => [1]

/-- Witness for C5 at a concrete model, vectorizer and input, for both the
`predict_proba` branch and the branch without it. -/
theorem classify_text_distribution_witness :
    (∃ r, classify_text exModelP exTfidf [] id id "beef".data = some r ∧
      (∃ c, r.confidence = some c ∧ c ∈ exProbs ∧ ∀ p ∈ exProbs, p ≤ c) ∧
      ∃ d, r.distribution = some d ∧
        (d.map Prod.fst).Perm exClasses ∧
        (∀ lab, d.countP (fun e => decide (e.1 = lab)) =
          if lab ∈ exClasses then 1 else 0) ∧
        d.Pairwise (fun a b => b.2 ≤ a.2)) ∧
    ∃ r, classify_text exModelNoP exTfidf [] id id "beef".data = some r ∧
      r.confidence = none ∧ r.distribution = none :=
  ⟨(classify_text_distribution exModelP exTfidf [] id id "beef".data
      (by decide) (by decide)).1 (fun _ => exProbs) rfl (by decide) (by decide),
   (classify_text_distribution exModelNoP exTfidf [] id id "beef".data
      (by decide) (by decide)).2 rfl⟩

/-- Python exceptions distinguished by `scraper.py`'s output-writing code:
`PermissionError` (a locked file) versus anything else. -/
inductive PyExn where
  | permissionError
  | other (msg : List Char)
deriving DecidableEq

/-- The primary CSV path of `scraper.py`'s `__main__`. -/
def primaryPath : List Char := "Omoding.csv".data

/-- The fallback CSV path of `scraper.py`'s `__main__`. -/
def fallbackPath : List Char := "Omoding_new.csv".data

/-- The CSV-writing step of `scraper.py`'s `__main__`:
`save_to_csv(unique_data, "Omoding.csv")` inside `try`, with
`except PermissionError` retrying once as `Omoding_new.csv`.  The ambient
filesystem is the function `writeCsv`; the result records the trace of
attempted writes (path and rows passed to each) and the final outcome,
where an `Except.error` is an uncaught exception. -/
def write_with_fallback
    (writeCsv : List Char → List ScrapedRow → Except PyExn Unit)
    (rows : List ScrapedRow) :
    List (List Char × List ScrapedRow) × Except PyExn Unit :=
  match writeCsv primaryPath rows with
  | .ok _ => ([(primaryPath, rows)], .ok ())
  | .error .permissionError =>
    match writeCsv fallbackPath rows with
    | .ok _ => ([(primaryPath, rows), (fallbackPath, rows)], .ok ())
    | .error e => ([(primaryPath, rows), (fallbackPath, rows)], .error e)
  | .error e => ([(primaryPath, rows)], .error e)

/-- Claim C9: when the primary CSV write raises `PermissionError`, exactly
one recovery attempt writes the same rows to the fallback path, and the
final outcome is exactly the fallback write's outcome — success if it
succeeds, and its exception propagating (fatal) if it fails too. -/
theorem write_with_fallback_spec
    (writeCsv : List Char → List ScrapedRow → Except PyExn Unit)
    (rows : List ScrapedRow)
    (h : writeCsv primaryPath rows = .error .permissionError) :
    (write_with_fallback writeCsv rows).1 =
        [(primaryPath, rows), (fallbackPath, rows)] ∧
      (write_with_fallback writeCsv rows).2 = writeCsv fallbackPath rows := by
  cases hfb : writeCsv fallbackPath rows with
  | ok u => cases u; exact ⟨by simp [write_with_fallback, h, hfb],
      by simp [write_with_fallback, h, hfb]⟩
  | error e => exact ⟨by simp [write_with_fallback, h, hfb],
      by simp [write_with_fallback, h, hfb]⟩

/-- Witness for C9: a filesystem with the primary path locked and the
fallback path writable. -/
theorem write_with_fallback_spec_witness :
    (write_with_fallback
        (fun p _ => if p = primaryPath then .error .permissionError else .ok ())
        []).1 = [(primaryPath, ([] : List ScrapedRow)),
                 (fallbackPath, ([] : List ScrapedRow))] ∧
      (write_with_fallback
        (fun p _ => if p = primaryPath then .error .permissionError else .ok ())
        []).2 =
        (fun (p : List Char) (_ : List ScrapedRow) =>
          if p = primaryPath then (.error .permissionError : Except PyExn Unit)
          else .ok ()) fallbackPath [] :=
  write_with_fallback_spec _ [] (by simp)

/-- A well-formed normalized token: lowercase alphabetic characters only,
length above 2, not a stopword (spec §3, NormalizedText). -/
def goodTok (stop : List (List Char)) (t : List Char) : Prop :=
  (∀ c ∈ t, isLowerAZ c = true) ∧ 2 < t.length ∧ t ∉ stop

theorem isLowerAZ_not_space (c : Char) (h : isLowerAZ c = true) :
    isPySpace c = false := by
  by_contra hns
  rw [Bool.not_eq_false] at hns
  simp only [isPySpace, Bool.or_eq_true, decide_eq_true_eq] at hns
  rcases hns with ((((rfl | rfl) | rfl) | rfl) | rfl) | rfl <;>
    exact absurd h (by decide)

theorem pyLowerChar_fix (c : Char) (h : isLowerAZ c = true) :
    pyLowerChar c = c := by
  simp only [isLowerAZ, Bool.and_eq_true, decide_eq_true_eq] at h
  rw [pyLowerChar, if_neg]
  simp only [Bool.and_eq_true, decide_eq_true_eq, not_and]
  intro _ hZ
  exact absurd hZ (not_le.mpr (lt_of_lt_of_le (by decide : 'Z' < 'a') h.1))

theorem joinSpace_cons₂ (t t2 : List Char) (ts : List (List Char)) :
    joinSpace (t :: t2 :: ts) = t ++ ' ' :: joinSpace (t2 :: ts) := rfl

theorem joinSpace_chars (toks : List (List Char)) (c : Char)
    (hc : c ∈ joinSpace toks) : c = ' ' ∨ ∃ t ∈ toks, c ∈ t := by
  induction toks with
  | nil => simp [joinSpace] at hc
  | cons t ts ih =>
    cases ts with
    | nil =>
      rw [show joinSpace [t] = t from rfl] at hc
      exact Or.inr ⟨t, List.mem_cons_self _ _, hc⟩
    | cons t2 ts2 =>
      rw [joinSpace_cons₂] at hc
      rcases List.mem_append.mp hc with hIn | hIn
      · exact Or.inr ⟨t, List.mem_cons_self _ _, hIn⟩
      · rcases List.mem_cons.mp hIn with rfl | hIn
        · exact Or.inl rfl
        · rcases ih hIn with hsp | ⟨t', ht', hct'⟩
          · exact Or.inl hsp
          · exact Or.inr ⟨t', List.mem_cons_of_mem _ ht', hct'⟩

theorem joinSpace_head_append (t : List Char) (ts : List (List Char)) :
    ∃ u, joinSpace (t :: ts) = t ++ u := by
  cases ts with
  | nil => exact ⟨[], by simp [joinSpace]⟩
  | cons t2 ts2 => exact ⟨' ' :: joinSpace (t2 :: ts2), joinSpace_cons₂ _ _ _⟩

theorem joinSpace_reverse_head (toks : List (List Char)) (hne : toks ≠ [])
    (h : ∀ t ∈ toks, t ≠ [] ∧ ∀ c ∈ t, isPySpace c = false) :
    ∃ c w, (joinSpace toks).reverse = c :: w ∧ isPySpace c = false := by
  induction toks with
  | nil => exact absurd rfl hne
  | cons t ts ih =>
    cases ts with
    | nil =>
      obtain ⟨htne, htc⟩ := h t (List.mem_cons_self _ _)
      obtain ⟨c, w, hcw⟩ := List.exists_cons_of_ne_nil
        (by simpa using List.reverse_eq_nil_iff.not.mpr htne : t.reverse ≠ [])
      refine ⟨c, w, by simpa [joinSpace] using hcw, ?_⟩
      exact htc c (by rw [← List.mem_reverse, hcw]; exact List.mem_cons_self _ _)
    | cons t2 ts2 =>
      obtain ⟨c, w, hcw, hcns⟩ := ih (by simp)
        (fun t' ht' => h t' (List.mem_cons_of_mem _ ht'))
      refine ⟨c, w ++ [' '] ++ t.reverse, ?_, hcns⟩
      rw [joinSpace_cons₂, List.reverse_append, List.reverse_cons, hcw]
      simp

theorem pyStrip_of_ends (l : List Char)
    (hhead : ∀ c w, l = c :: w → isPySpace c = false)
    (hlast : ∀ c w, l.reverse = c :: w → isPySpace c = false) :
    pyStrip l = l := by
  have h1 : l.dropWhile isPySpace = l := by
    cases l with
    | nil => rfl
    | cons c w => rw [List.dropWhile_cons, if_neg (by simp [hhead c w rfl])]
  have h2 : l.reverse.dropWhile isPySpace = l.reverse := by
    cases hr : l.reverse with
    | nil => rfl
    | cons c w => rw [List.dropWhile_cons, if_neg (by simp [hlast c w hr])]
  rw [pyStrip, h1, h2, List.reverse_reverse]

theorem pyStrip_join (toks : List (List Char))
    (h : ∀ t ∈ toks, t ≠ [] ∧ ∀ c ∈ t, isPySpace c = false) :
    pyStrip (joinSpace toks) = joinSpace toks := by
  cases toks with
  | nil => rfl
  | cons t ts =>
    apply pyStrip_of_ends
    · intro c w hcw
      obtain ⟨htne, htc⟩ := h t (List.mem_cons_self _ _)
      obtain ⟨u, hu⟩ := joinSpace_head_append t ts
      obtain ⟨d, t', rfl⟩ := List.exists_cons_of_ne_nil htne
      rw [hu] at hcw
      have : d = c := by simpa using congrArg (fun l => l.head?) hcw
      exact this ▸ htc d (List.mem_cons_self _ _)
    · intro c w hcw
      obtain ⟨c0, w0, hcw0, hns⟩ := joinSpace_reverse_head (t :: ts) (by simp) h
      rw [hcw0] at hcw
      cases hcw
      exact hns

theorem collapseWs_nil : collapseWs [] = [] := by simp [collapseWs]

theorem collapseWs_cons_nonspace (c : Char) (cs : List Char)
    (h : isPySpace c = false) : collapseWs (c :: cs) = c :: collapseWs cs := by
  simp [collapseWs, h]

theorem collapseWs_cons_space (c : Char) (cs : List Char)
    (h : isPySpace c = true) :
    collapseWs (c :: cs) = ' ' :: collapseWs (cs.dropWhile isPySpace) := by
  simp [collapseWs, h]

theorem collapseWs_append_nonspace (a b : List Char)
    (ha : ∀ c ∈ a, isPySpace c = false) :
    collapseWs (a ++ b) = a ++ collapseWs b := by
  induction a with
  | nil => simp
  | cons x a' ih =>
    rw [List.cons_append,
      collapseWs_cons_nonspace x _ (ha x (List.mem_cons_self _ _)),
      ih (fun c hc => ha c (List.mem_cons_of_mem _ hc))]
    rfl

theorem collapseWs_join (toks : List (List Char))
    (h : ∀ t ∈ toks, t ≠ [] ∧ ∀ c ∈ t, isPySpace c = false) :
    collapseWs (joinSpace toks) = joinSpace toks := by
  induction toks with
  | nil => exact collapseWs_nil
  | cons t ts ih =>
    obtain ⟨htne, htc⟩ := h t (List.mem_cons_self _ _)
    cases ts with
    | nil =>
      show collapseWs t = t
      have := collapseWs_append_nonspace t [] htc
      simpa [collapseWs_nil] using this
    | cons t2 ts2 =>
      rw [joinSpace_cons₂,
        collapseWs_append_nonspace t (' ' :: joinSpace (t2 :: ts2)) htc,
        collapseWs_cons_space ' ' _ (by decide)]
      obtain ⟨ht2ne, ht2c⟩ := h t2 (List.mem_cons_of_mem _ (List.mem_cons_self _ _))
      obtain ⟨u, hu⟩ := joinSpace_head_append t2 ts2
      obtain ⟨d, t2', hdt⟩ := List.exists_cons_of_ne_nil ht2ne
      have hdrop : (joinSpace (t2 :: ts2)).dropWhile isPySpace =
          joinSpace (t2 :: ts2) := by
        rw [hu, hdt, List.cons_append, List.dropWhile_cons,
          if_neg (by simp [ht2c d (by rw [hdt]; exact List.mem_cons_self _ _)])]
      rw [hdrop, ih (fun t' ht' => h t' (List.mem_cons_of_mem _ ht'))]

theorem takeWhile_all {α : Type} (p : α → Bool) (l : List α)
    (h : ∀ a ∈ l, p a = true) : l.takeWhile p = l := by
  induction l with
  | nil => rfl
  | cons x xs ih =>
    rw [List.takeWhile_cons, if_pos (h x (List.mem_cons_self _ _)),
      ih (fun a ha => h a (List.mem_cons_of_mem _ ha))]

theorem pySplitWs_sound (l : List Char) (t : List Char)
    (ht : t ∈ pySplitWs l) :
    t ≠ [] ∧ ∀ c ∈ t, isPySpace c = false ∧ c ∈ l := by
  induction l using pySplitWs.induct with
  | case1 => simp [pySplitWs] at ht
  | case2 c cs hsp ih =>
    rw [pySplitWs, if_pos hsp] at ht
    obtain ⟨hne, hc⟩ := ih ht
    exact ⟨hne, fun d hd => ⟨(hc d hd).1, List.mem_cons_of_mem _ (hc d hd).2⟩⟩
  | case3 c cs hsp ih =>
    rw [pySplitWs, if_neg hsp] at ht
    rcases List.mem_cons.mp ht with rfl | ht
    · refine ⟨by simp, fun d hd => ?_⟩
      rcases List.mem_cons.mp hd with rfl | hd
      · exact ⟨Bool.not_eq_true _ ▸ (by simpa using hsp), List.mem_cons_self _ _⟩
      · have hdw := List.mem_takeWhile_imp hd
        refine ⟨by simpa using hdw, List.mem_cons_of_mem _ ?_⟩
        exact (List.takeWhile_sublist _).subset hd
    · obtain ⟨hne, hc⟩ := ih ht
      refine ⟨hne, fun d hd => ⟨(hc d hd).1, List.mem_cons_of_mem _ ?_⟩⟩
      exact (List.dropWhile_sublist _).subset (hc d hd).2

theorem pySplitWs_join (toks : List (List Char))
    (h : ∀ t ∈ toks, t ≠ [] ∧ ∀ c ∈ t, isPySpace c = false) :
    pySplitWs (joinSpace toks) = toks := by
  have hspace : isPySpace ' ' = true := by decide
  induction toks with
  | nil => simp [joinSpace, pySplitWs]
  | cons t ts ih =>
    obtain ⟨htne, htc⟩ := h t (List.mem_cons_self _ _)
    obtain ⟨d, t', rfl⟩ := List.exists_cons_of_ne_nil htne
    have hd : isPySpace d = false := htc d (List.mem_cons_self _ _)
    have ht' : ∀ c ∈ t', (fun x => !isPySpace x) c = true := fun c hc => by
      simp [htc c (List.mem_cons_of_mem _ hc)]
    cases ts with
    | nil =>
      show pySplitWs (d :: t') = [d :: t']
      rw [pySplitWs, if_neg (by simp [hd]), takeWhile_all _ t' ht',
        List.dropWhile_eq_nil_iff.mpr ht']
      simp [pySplitWs]
    | cons t2 ts2 =>
      rw [joinSpace_cons₂, List.cons_append, pySplitWs, if_neg (by simp [hd])]
      have htake : (t' ++ ' ' :: joinSpace (t2 :: ts2)).takeWhile
          (fun x => !isPySpace x) = t' := by
        rw [List.takeWhile_append, if_pos (by rw [takeWhile_all _ t' ht'])]
        simp [List.takeWhile_cons, hspace]
      have hdrop : (t' ++ ' ' :: joinSpace (t2 :: ts2)).dropWhile
          (fun x => !isPySpace x) = ' ' :: joinSpace (t2 :: ts2) := by
        rw [List.dropWhile_append, if_pos (by
          simp [List.dropWhile_eq_nil_iff.mpr ht'])]
        simp [List.dropWhile_cons, hspace]
      rw [htake, hdrop, pySplitWs, if_pos (by decide),
        ih (fun t'' ht'' => h t'' (List.mem_cons_of_mem _ ht''))]

theorem preprocess_form (stop : List (List Char))
    (lemV lemN : List Char → List Char) (s : List Char) :
    preprocess stop lemV lemN s =
      joinSpace (((pySplitWs (pyStrip (collapseWs ((pyLower s).map
        (fun c => if isLowerAZ c || isPySpace c then c else ' '))))).filter
          (fun t => decide (t ∉ stop ∧ 2 < t.length))).map
            (fun t => lemN (lemV t))) := by
  simp only [preprocess, List.map_map]
  rfl

theorem preprocess_fixes_normalized (stop : List (List Char))
    (lemV lemN : List Char → List Char) (toks : List (List Char))
    (h : ∀ t ∈ toks, goodTok stop t ∧ lemN (lemV t) = t) :
    preprocess stop lemV lemN (joinSpace toks) = joinSpace toks := by
  have htoks : ∀ t ∈ toks, t ≠ [] ∧ ∀ c ∈ t, isPySpace c = false := by
    intro t ht
    obtain ⟨⟨haz, hlen, _⟩, _⟩ := h t ht
    refine ⟨?_, fun c hc => isLowerAZ_not_space c (haz c hc)⟩
    intro hnil
    rw [hnil] at hlen
    simp at hlen
  have hchars : ∀ c ∈ joinSpace toks, isLowerAZ c = true ∨ c = ' ' := by
    intro c hc
    rcases joinSpace_chars toks c hc with rfl | ⟨t, ht, hct⟩
    · exact Or.inr rfl
    · exact Or.inl ((h t ht).1.1 c hct)
  have h1 : pyLower (joinSpace toks) = joinSpace toks := by
    rw [pyLower, List.map_congr_left (g := id) (fun c hc => ?_), List.map_id]
    rcases hchars c hc with haz | rfl
    · exact pyLowerChar_fix c haz
    · decide
  have h2 : (joinSpace toks).map
      (fun c => if isLowerAZ c || isPySpace c then c else ' ') =
        joinSpace toks := by
    rw [List.map_congr_left (g := id) (fun c hc => ?_), List.map_id]
    rcases hchars c hc with haz | rfl
    · simp [haz]
    · decide
  rw [preprocess_form, h1, h2, collapseWs_join toks htoks,
    pyStrip_join toks htoks, pySplitWs_join toks htoks,
    List.filter_eq_self.mpr (fun t ht => ?_),
    List.map_congr_left (g := id) (fun t ht => (h t ht).2), List.map_id]
  rw [decide_eq_true_eq]
  exact ⟨(h t ht).1.2.2, (h t ht).1.2.1⟩

theorem pyStrip_subset (l : List Char) (c : Char) (hc : c ∈ pyStrip l) :
    c ∈ l := by
  rw [pyStrip, List.mem_reverse] at hc
  have hc2 := (List.dropWhile_sublist isPySpace).subset hc
  rw [List.mem_reverse] at hc2
  exact (List.dropWhile_sublist isPySpace).subset hc2

theorem collapseWs_chars (l : List Char) (c : Char) (hc : c ∈ collapseWs l) :
    c = ' ' ∨ c ∈ l := by
  induction l using collapseWs.induct with
  | case1 => rw [collapseWs_nil] at hc; simp at hc
  | case2 d cs hd ih =>
    rw [collapseWs_cons_space d cs hd] at hc
    rcases List.mem_cons.mp hc with rfl | hc
    · exact Or.inl rfl
    · rcases ih hc with hsp | hmem
      · exact Or.inl hsp
      · exact Or.inr (List.mem_cons_of_mem _
          ((List.dropWhile_sublist _).subset hmem))
  | case3 d cs hd ih =>
    rw [collapseWs_cons_nonspace d cs (by simpa using hd)] at hc
    rcases List.mem_cons.mp hc with rfl | hc
    · exact Or.inr (List.mem_cons_self _ _)
    · rcases ih hc with hsp | hmem
      · exact Or.inl hsp
      · exact Or.inr (List.mem_cons_of_mem _ hmem)

theorem mapSub_chars (m : List Char) (c : Char)
    (hc : c ∈ m.map (fun c => if isLowerAZ c || isPySpace c then c else ' ')) :
    isLowerAZ c = true ∨ isPySpace c = true := by
  obtain ⟨c0, _, rfl⟩ := List.mem_map.mp hc
  by_cases h : (isLowerAZ c0 || isPySpace c0) = true
  · rw [if_pos h]
    simpa using h
  · rw [if_neg h]
    exact Or.inr (by decide)

theorem kept_tokens_good (stop : List (List Char)) (s : List Char) :
    ∀ t ∈ (pySplitWs (pyStrip (collapseWs ((pyLower s).map
        (fun c => if isLowerAZ c || isPySpace c then c else ' '))))).filter
          (fun t => decide (t ∉ stop ∧ 2 < t.length)), goodTok stop t := by
  intro t ht
  rw [List.mem_filter, decide_eq_true_eq] at ht
  obtain ⟨hmem, hkeep⟩ := ht
  obtain ⟨hne, hchar⟩ := pySplitWs_sound _ t hmem
  refine ⟨?_, hkeep.2, hkeep.1⟩
  intro c hc
  obtain ⟨hns, hcl⟩ := hchar c hc
  have hcl2 := pyStrip_subset _ c hcl
  rcases collapseWs_chars _ c hcl2 with rfl | hcl3
  · exact absurd hns (by decide)
  · rcases mapSub_chars _ c hcl3 with haz | hsp
    · exact haz
    · rw [hsp] at hns
      cases hns

/-- Claim C3 (amended): provided the external lemmatizer maps every
well-formed normalized token (lowercase alphabetic, length > 2, not a
stopword) to another such token, every token of the normalizer's output
is a lowercase alphabetic non-stopword token of length > 2.  As literally
stated the claim fails, because both lemmatization passes run after the
length/stopword filter and can emit short tokens (see the
counterexample). -/
theorem preprocess_output_tokens (stop : List (List Char))
    (lemV lemN : List Char → List Char) (s : List Char)
    (hlem : ∀ t, goodTok stop t → goodTok stop (lemN (lemV t))) :
    ∀ t ∈ pySplitWs (preprocess stop lemV lemN s), goodTok stop t := by
  intro t ht
  rw [preprocess_form] at ht
  set M := ((pySplitWs (pyStrip (collapseWs ((pyLower s).map
    (fun c => if isLowerAZ c || isPySpace c then c else ' '))))).filter
      (fun t => decide (t ∉ stop ∧ 2 < t.length))).map
        (fun t => lemN (lemV t)) with hM
  have hgood : ∀ t' ∈ M, goodTok stop t' := by
    intro t' ht'
    rw [hM] at ht'
    obtain ⟨t0, ht0, rfl⟩ := List.mem_map.mp ht'
    exact hlem t0 (kept_tokens_good stop s t0 ht0)
  have htoks : ∀ t' ∈ M, t' ≠ [] ∧ ∀ c ∈ t', isPySpace c = false := by
    intro t' ht'
    obtain ⟨haz, hlen, _⟩ := hgood t' ht'
    refine ⟨?_, fun c hc => isLowerAZ_not_space c (haz c hc)⟩
    intro hnil
    rw [hnil] at hlen
    simp at hlen
  rw [pySplitWs_join M htoks] at ht
  exact hgood t ht

/-- Claim C2 (amended): provided the composed verb-then-noun lemmatization
maps every well-formed normalized token to a well-formed token on which a
second composed pass changes nothing, the normalizer is a projection:
`preprocess (preprocess s) = preprocess s` for every raw string, and in
particular it fixes every string already in normalized form.  As literally
stated for arbitrary raw strings the claim fails (see the
counterexample). -/
theorem preprocess_idempotent (stop : List (List Char))
    (lemV lemN : List Char → List Char)
    (hlem : ∀ t, goodTok stop t → goodTok stop (lemN (lemV t)) ∧
      lemN (lemV (lemN (lemV t))) = lemN (lemV t)) (s : List Char) :
    preprocess stop lemV lemN (preprocess stop lemV lemN s) =
      preprocess stop lemV lemN s := by
  rw [preprocess_form stop lemV lemN s]
  apply preprocess_fixes_normalized
  intro t ht
  obtain ⟨t0, ht0, rfl⟩ := List.mem_map.mp ht
  exact ⟨(hlem t0 (kept_tokens_good stop s t0 ht0)).1,
    (hlem t0 (kept_tokens_good stop s t0 ht0)).2⟩

/-- Witness for the amended C2 with the identity lemmatizer at a concrete
raw string. -/
theorem preprocess_idempotent_witness :
    preprocess [] id id (preprocess [] id id "Some Beef stew!!".data) =
      preprocess [] id id "Some Beef stew!!".data :=
  preprocess_idempotent [] id id (fun t h => ⟨h, rfl⟩) "Some Beef stew!!".data

/-- Witness for the amended C3 with the identity lemmatizer at a concrete
raw string: the token `grilled` of the normalized output is well formed. -/
theorem preprocess_output_tokens_witness :
    goodTok [] "grilled".data :=
  preprocess_output_tokens [] id id "Grilled beef, 2 sauces".data
    (fun t h => h) "grilled".data
    (by simp +decide [preprocess, pyLower, pyLowerChar, pyStrip, collapseWs,
      pySplitWs, joinSpace, isLowerAZ, isPySpace])

/-- Modelled from the spec: the NLTK English stopword set is an external
artifact not in the sources; this list holds the stopwords the spec
itself names (§8: `to a in it at be`, `the`, `were`; glossary: `the`,
`is`) plus a few clearly stated English stopwords, enough for the
concrete inputs considered.  The verb form `goes` is not an English
stopword. -/
def stop_en : List (List Char) :=
  ["the".data, "is".data, "are".data, "was".data, "were".data, "be".data,
   "to".data, "a".data, "an".data, "in".data, "it".data, "at".data,
   "and".data, "of".data, "on".data]

/-- Modelled from the spec: the WordNet verb-context lemmatization pass is
an external artifact; per the spec's glossary it reduces a word to its
dictionary base form (e.g. `running` to `run`), and on the verb `goes`
that base form is `go`.  This fragment records exactly that one
documented reduction and leaves every other token unchanged. -/
def wn_lemma_v : List Char → List Char :=
  fun t => if t = "goes".data then "go".data else t

/-- Modelled from the spec: the WordNet noun-context lemmatization pass;
identity on the tokens considered here, which are already dictionary base
forms. -/
def wn_lemma_n : List Char → List Char := fun t => t

theorem preprocess_goes :
    preprocess stop_en wn_lemma_v wn_lemma_n "goes".data = "go".data := by
  simp +decide [preprocess, pyLower, pyLowerChar, pyStrip, collapseWs,
    pySplitWs, joinSpace, isLowerAZ, isPySpace, stop_en, wn_lemma_v,
    wn_lemma_n]

theorem preprocess_go :
    preprocess stop_en wn_lemma_v wn_lemma_n "go".data = [] := by
  simp +decide [preprocess, pyLower, pyLowerChar, pyStrip, collapseWs,
    pySplitWs, joinSpace, isLowerAZ, isPySpace, stop_en, wn_lemma_v,
    wn_lemma_n]

/-- Counterexample to C2 as stated: with the lemmatizer behavior the spec
documents for the verb `goes`, `preprocess "goes" = "go"`, yet
`preprocess "go" = ""` because the token `go` has length ≤ 2 — so
`preprocess (preprocess s)) = preprocess s` fails at `s = "goes"`. -/
theorem preprocess_not_idempotent :
    preprocess stop_en wn_lemma_v wn_lemma_n
        (preprocess stop_en wn_lemma_v wn_lemma_n "goes".data) ≠
      preprocess stop_en wn_lemma_v wn_lemma_n "goes".data := by
  rw [preprocess_goes, preprocess_go]
  decide

/-- Counterexample to C3 as stated: the output of the normalizer on the
raw string `goes` is the single token `go`, whose length is not greater
than 2. -/
theorem preprocess_output_short_token :
    pySplitWs (preprocess stop_en wn_lemma_v wn_lemma_n "goes".data) =
      ["go".data] ∧ ¬ 2 < "go".data.length := by
  rw [preprocess_goes]
  exact ⟨by simp +decide [pySplitWs, isPySpace], by decide⟩
